import Mathlib

/-
Verification of the student-grouping core (tut01.py): record normalization,
the category index built by load_data, the round-robin allocator
(create_and_save_branchwise_groups), the size-balanced allocator
(create_and_save_uniform_groups) and the statistics builder (save_statistics).
Pandas dataframes are embedded as lists of rows; Python dicts as
insertion-ordered association lists; Python stable sorting as insertion sort
(any stable sort over a total preorder produces the same output as Timsort).
-/

namespace StudentGroup

/-- A normalized student record: the Roll, Name and Email columns of one row
plus the derived Branch column (the category code). -/
structure Student where
  roll : String
  name : String
  email : String
  branch : String
deriving DecidableEq

/-- Lexicographic code-point comparison of character lists, the order Python
uses to compare strings. -/
def chListLe : List Char → List Char → Bool
  | [], _ => true
  | _ :: _, [] => false
  | a :: as, b :: bs =>
    if a.toNat < b.toNat then true
    else if b.toNat < a.toNat then false
    else chListLe as bs

/-- Python string comparison (code-point lexicographic less-or-equal). -/
def strLe (a b : String) : Bool := chListLe a.data b.data

/-- Insert x in front of the first element y with le x y; elements comparing
equal to x stay in front of it. -/
def pyInsert (le : α → α → Bool) (x : α) : List α → List α
  | [] => [x]
  | y :: ys => if le x y then x :: y :: ys else y :: pyInsert le x ys

/-- Stable sort by the total preorder le, modelling Python sorted: a stable
sort over a total preorder is unique, so insertion sort agrees with Timsort. -/
def pySort (le : α → α → Bool) : List α → List α
  | [] => []
  | x :: xs => pyInsert le x (pySort le xs)

/-- Branch code derived from a roll number, as students_df.Roll.str[4:6]:
the characters at 0-indexed positions 4 and 5 (truncated on short strings). -/
def deriveBranch (roll : String) : String := String.mk ((roll.data.drop 4).take 2)

/-- The required columns checked by load_data. -/
def required_cols : List String := ["Roll", "Name", "Email"]

/-- One raw row of the uploaded sheet. The three field values are meaningful
only when the corresponding column is present in the schema; load_data
consults only the schema (the cols field of InputData) for validation. -/
structure RawRow where
  roll : String
  name : String
  email : String
deriving DecidableEq

/-- A parsed tabular upload: the column names of the sheet plus its rows. -/
structure InputData where
  cols : List String
  rows : List RawRow
deriving DecidableEq

/-- The branches dictionary: an insertion-ordered association list from
branch code to the list of that branch's students, as a Python dict. -/
abbrev CategoryIndex := List (String × List Student)

/-- The mutable fields of StudentDataAnalyser: students_df and branches.
The stored dataframe is kept as the parsed upload; on a successful load the
source also adds a Branch column to it, recorded here in the schema (its
values are deriveBranch of the Roll column, so they carry no extra data). -/
structure AnalyserState where
  students_df : Option InputData
  branches : CategoryIndex
deriving DecidableEq

/-- First-occurrence deduplication, as pandas Series.unique. -/
def uniqueFirst (l : List String) : List String :=
  l.foldl (fun acc x => if x ∈ acc then acc else acc ++ [x]) []

/-- Python dict assignment d[key] = v: replace in place when the key exists,
otherwise append at the end (insertion order). -/
def dictSet (d : CategoryIndex) (key : String) (v : List Student) : CategoryIndex :=
  if d.any (fun p => p.1 == key) then
    d.map (fun p => if p.1 == key then (key, v) else p)
  else d ++ [(key, v)]

/-- Normalization of one raw row into a Student with its derived branch. -/
def normalizeRow (r : RawRow) : Student :=
  { roll := r.roll, name := r.name, email := r.email, branch := deriveBranch r.roll }

/-- Name comparison used by sort_values of the Name column. -/
def byNameLe (a b : Student) : Bool := strLe a.name b.name

/-- The schema of students_df after the source sets the Branch column. -/
def addBranchCol (cols : List String) : List String :=
  if "Branch" ∈ cols then cols else cols ++ ["Branch"]

/-- load_data of tut01.py: parse the upload into students_df, validate the
required columns (returning False without touching branches when one is
missing), derive the Branch column, and assign one branches entry per
distinct branch, in first-occurrence order, holding that branch's rows
sorted by Name. The branches dict of the prior state is updated in place,
never cleared. -/
def load_data (st : AnalyserState) (file : InputData) : Bool × AnalyserState :=
  if required_cols.all (fun c => file.cols.contains c) then
    let students := file.rows.map normalizeRow
    let branchNames := uniqueFirst (students.map (fun s => s.branch))
    let newBranches := branchNames.foldl
      (fun d b => dictSet d b (pySort byNameLe (students.filter (fun s => s.branch == b))))
      st.branches
    (true, { students_df := some { cols := addBranchCol file.cols, rows := file.rows },
             branches := newBranches })
  else (false, { st with students_df := some file })

/-- sorted(self.branches.keys()): the branch codes in ascending order. -/
def sortedKeys (branches : CategoryIndex) : List String :=
  pySort strLe (branches.map Prod.fst)

/-- self.branches[branch]: exact-key lookup in the branches dict. -/
def lookupBranch (branches : CategoryIndex) (c : String) : List Student :=
  match branches.find? (fun p => p.1 == c) with
  | some p => p.2
  | none => []

/-- One iteration of the round-robin inner loop: append the student to the
bucket at the cursor, then advance the cursor by one modulo k. -/
def branchwiseStep (k : Nat) (acc : List (List Student) × Nat) (s : Student) :
    List (List Student) × Nat :=
  (acc.1.set acc.2 (acc.1.getD acc.2 [] ++ [s]), (acc.2 + 1) % k)

/-- create_and_save_branchwise_groups of tut01.py (the allocation part):
iterate branch codes in ascending order, iterate each branch's students in
stored order, assigning round-robin with a cursor carried across branches. -/
def create_and_save_branchwise_groups (branches : CategoryIndex) (k : Nat) :
    List (List Student) :=
  ((sortedKeys branches).foldl
    (fun acc name => (lookupBranch branches name).foldl (branchwiseStep k) acc)
    (List.replicate k [], 0)).1

/-- The comparison of sorted(self.branches.items(), key=len, reverse=True):
entries with more students come first; Python sorting is stable, so entries
of equal size keep their dict insertion order. -/
def byCountDesc (a b : String × List Student) : Bool := decide (b.2.length ≤ a.2.length)

/-- The branch processing order of the size-balanced allocator. -/
def sortedBranches (branches : CategoryIndex) : CategoryIndex :=
  pySort byCountDesc branches

/-- total_students: the sum of the branch sizes. -/
def totalRecords (branches : CategoryIndex) : Nat :=
  (branches.map (fun p => p.2.length)).sum

/-- target_size = math.ceil(total_students / num_groups). -/
def targetSize (branches : CategoryIndex) (k : Nat) : Nat :=
  (totalRecords branches + k - 1) / k

/-- One iteration of the size-balanced inner loop: advance the cursor by one
when the cursor bucket is full and the cursor is not on the last bucket,
then append the student to the cursor bucket. -/
def uniformStep (k target : Nat) (acc : List (List Student) × Nat) (s : Student) :
    List (List Student) × Nat :=
  let g := if target ≤ (acc.1.getD acc.2 []).length ∧ acc.2 < k - 1 then acc.2 + 1 else acc.2
  (acc.1.set g (acc.1.getD g [] ++ [s]), g)

/-- create_and_save_uniform_groups of tut01.py (the allocation part):
process branches largest first, filling each bucket to the target size
before moving on; the cursor never decreases and never wraps. -/
def create_and_save_uniform_groups (branches : CategoryIndex) (k : Nat) :
    List (List Student) :=
  ((sortedBranches branches).foldl
    (fun acc p => p.2.foldl (uniformStep k (targetSize branches k)) acc)
    (List.replicate k [], 0)).1

/-- The G-prefixed group label of bucket index i (1-based in file names). -/
def groupLabel (i : Nat) : String := "G" ++ toString i

/-- len(group_df[group_df.Branch == branch]): how many students of the given
branch a bucket holds. -/
def branchCount (g : List Student) (b : String) : Nat :=
  (g.filter (fun s => s.branch == b)).length

/-- One row of the statistics table: the group label, one count per branch
code in globally sorted branch order, and the Total column. -/
structure StatsRow where
  label : String
  counts : List Nat
  total : Nat
deriving DecidableEq

/-- save_statistics of tut01.py: one row per non-empty bucket; the counts
follow sorted(self.branches.keys()) and the Total accumulates those counts. -/
def save_statistics (branches : CategoryIndex) (groups : List (List Student)) :
    List StatsRow :=
  (groups.enum.filterMap (fun ig =>
    if ig.2.isEmpty then none
    else
      some { label := groupLabel (ig.1 + 1),
             counts := (sortedKeys branches).map (fun b => branchCount ig.2 b),
             total := ((sortedKeys branches).map (fun b => branchCount ig.2 b)).sum }))

/-- The records of the index in the iteration order of the round-robin
allocator: branch codes ascending, each branch's students in stored order. -/
def allSortedRecords (branches : CategoryIndex) : List Student :=
  (sortedKeys branches).flatMap (lookupBranch branches)

/-- The records of the index in the iteration order of the size-balanced
allocator: branches largest first, each branch's students in stored order. -/
def allBySizeRecords (branches : CategoryIndex) : List Student :=
  (sortedBranches branches).flatMap (fun p => p.2)

/-- All records of the index in plain index order. -/
def allRecords (branches : CategoryIndex) : List Student :=
  branches.flatMap (fun p => p.2)

/-- The index keys are pairwise distinct (true of every loaded dict). -/
abbrev keysNodup (branches : CategoryIndex) : Prop :=
  (branches.map Prod.fst).Nodup

/-- Every record filed under a branch code carries that code in its Branch
field (true of every loaded dict, since load_data groups by that field). -/
abbrev branchConsistent (branches : CategoryIndex) : Prop :=
  ∀ p ∈ branches, ∀ s ∈ p.2, s.branch = p.1

/-- Modelled from the description of the round-robin allocator in the spec:
the record visited while the cursor is at position c goes to bucket c, after
which the cursor advances by one modulo k, never resetting; this computes
the subsequence of the visited records that lands in bucket i. -/
def specRoundRobinPick (k i : Nat) : Nat → List Student → List Student
  | _, [] => []
  | c, s :: rest => (if c = i then [s] else []) ++ specRoundRobinPick k i ((c + 1) % k) rest

/-- How many of n consecutive cursor positions, starting at c, equal i
modulo k (the per-bucket share of a block of n round-robin assignments). -/
def residCount (k i : Nat) : Nat → Nat → Nat
  | _, 0 => 0
  | c, n + 1 => (if c = i then 1 else 0) + residCount k i ((c + 1) % k) n

/-- Shorthand for building a concrete student record. -/
def mkS (r n e b : String) : Student := { roll := r, name := n, email := e, branch := b }

/-- Concrete AI student 1 of the worked example of the spec. -/
def ai1 : Student := mkS "1401AI01" "A1" "a1@x" "AI"

/-- Concrete AI student 2 of the worked example of the spec. -/
def ai2 : Student := mkS "1401AI02" "A2" "a2@x" "AI"

/-- Concrete AI student 3 of the worked example of the spec. -/
def ai3 : Student := mkS "1401AI03" "A3" "a3@x" "AI"

/-- Concrete AI student 4 of the worked example of the spec. -/
def ai4 : Student := mkS "1401AI04" "A4" "a4@x" "AI"

/-- Concrete AI student 5 of the worked example of the spec. -/
def ai5 : Student := mkS "1401AI05" "A5" "a5@x" "AI"

/-- Concrete CB student 1 of the worked example of the spec. -/
def cb1 : Student := mkS "1401CB01" "B1" "b1@x" "CB"

/-- Concrete CB student 2 of the worked example of the spec. -/
def cb2 : Student := mkS "1401CB02" "B2" "b2@x" "CB"

/-- Concrete CB student 3 of the worked example of the spec. -/
def cb3 : Student := mkS "1401CB03" "B3" "b3@x" "CB"

/-- The category index of the worked example of the spec: five AI students
and three CB students. -/
def exIndex : CategoryIndex :=
  [("AI", [ai1, ai2, ai3, ai4, ai5]), ("CB", [cb1, cb2, cb3])]

/-- A fresh analyser: no dataframe, empty branches dict. -/
def emptyState : AnalyserState := { students_df := none, branches := [] }

/-- An upload whose schema lacks the Email column. -/
def badFile : InputData := { cols := ["Roll", "Name"], rows := [] }

/-- A well-formed upload holding a single AI student. -/
def fileA : InputData :=
  { cols := ["Roll", "Name", "Email"],
    rows := [{ roll := "1401AI01", name := "Asha", email := "a1@x" }] }

/-- A well-formed upload holding a single CB student. -/
def fileB : InputData :=
  { cols := ["Roll", "Name", "Email"],
    rows := [{ roll := "1401CB01", name := "Banu", email := "b1@x" }] }

/-- A well-formed upload with one CB row before one AI row, so the loaded
branches dict lists CB before AI and the two branches have equal size. -/
def tieFile : InputData :=
  { cols := ["Roll", "Name", "Email"],
    rows := [{ roll := "1401CB01", name := "Banu", email := "b1@x" },
             { roll := "1401AI01", name := "Asha", email := "a1@x" }] }

/-- Reading a set list at any index: the written value at the written index
(when in range), the old value elsewhere. -/
theorem getD_set_index {α : Type} (l : List α) (d : α) (i j : Nat) (x : α)
    (h : i < l.length) :
    (l.set i x).getD j d = if i = j then x else l.getD j d := by
  rw [List.getD_eq_getElem?_getD, List.getD_eq_getElem?_getD, List.getElem?_set]
  split
  · next heq => subst heq; rfl
  · rfl

/-- Reading a replicated list of empty buckets gives an empty bucket. -/
theorem getD_replicate_nil {α : Type} (k t : Nat) :
    (List.replicate k ([] : List α)).getD t [] = [] := by
  rcases Nat.lt_or_ge t k with h | h
  · rw [List.getD_eq_getElem?_getD, List.getElem?_replicate]
    simp [h]
  · rw [List.getD_eq_getElem?_getD,
      List.getElem?_eq_none (by simpa using h)]
    rfl

/-- The tail a drop leaves of a list of buckets when one bucket remains. -/
theorem drop_length_sub_one {α : Type} (gs : List α) (d : α) (h : 1 ≤ gs.length) :
    gs.drop (gs.length - 1) = [gs.getD (gs.length - 1) d] := by
  have h1 : gs.length - 1 < gs.length := by omega
  rw [List.getD_eq_getElem?_getD, List.getElem?_eq_getElem h1]
  rw [List.drop_eq_getElem_cons h1]
  rw [List.drop_eq_nil_of_le (by omega)]
  rfl

/-- The sum of a mapped list all of whose values agree is a product. -/
theorem sum_map_const_eq {α : Type} (l : List α) (f : α → Nat) (t : Nat)
    (h : ∀ x ∈ l, f x = t) : (l.map f).sum = l.length * t := by
  induction l with
  | nil => simp
  | cons a l ih =>
    simp only [List.map_cons, List.sum_cons, List.length_cons,
      h a (List.mem_cons_self a l)]
    rw [ih (fun x hx => h x (List.mem_cons_of_mem a hx))]
    ring

/-- Summing a pointwise sum of two maps splits into two sums. -/
theorem sum_map_add_split {α : Type} (l : List α) (f g : α → Nat) :
    (l.map (fun x => f x + g x)).sum = (l.map f).sum + (l.map g).sum := by
  induction l with
  | nil => rfl
  | cons a l ih => simp only [List.map_cons, List.sum_cons, ih]; ring

/-- Summing an indicator map counts the satisfying elements. -/
theorem sum_map_ite_eq_countP {α : Type} (l : List α) (q : α → Bool) :
    (l.map (fun x => if q x then 1 else 0)).sum = l.countP q := by
  induction l with
  | nil => rfl
  | cons a l ih =>
    simp only [List.map_cons, List.sum_cons, ih, List.countP_cons]
    split <;> omega

/-- In a duplicate-free list every member occurs exactly once. -/
theorem count_eq_one_of_nodup_mem {α : Type} [DecidableEq α] {l : List α} {a : α}
    (hd : l.Nodup) (hm : a ∈ l) : l.count a = 1 := by
  induction l with
  | nil => cases hm
  | cons b l ih =>
    rcases List.mem_cons.mp hm with h | h
    · subst h
      rw [List.count_cons_self]
      have : a ∉ l := (List.nodup_cons.mp hd).1
      rw [List.count_eq_zero_of_not_mem this]
    · have hne : a ≠ b := by
        rintro rfl
        exact absurd h (List.nodup_cons.mp hd).1
      rw [List.count_cons_of_ne hne]
      exact ih (List.nodup_cons.mp hd).2 h

/-- A conditional filterMap is a filter followed by a map, given agreement
of the two bodies on the retained elements. -/
theorem filterMap_if_eq_filter_map {α β : Type} (L : List α) (q : α → Bool)
    (F G : α → β) (h : ∀ x ∈ L, q x = false → F x = G x) :
    L.filterMap (fun x => if q x then none else some (F x))
      = (L.filter (fun x => !q x)).map G := by
  induction L with
  | nil => rfl
  | cons a L ih =>
    rw [List.filterMap_cons, List.filter_cons]
    rcases hq : q a with _ | _
    · simp only [hq, Bool.not_false, if_neg Bool.false_ne_true, ite_true, List.map_cons]
      rw [h a (List.mem_cons_self a L) hq,
        ih (fun x hx => h x (List.mem_cons_of_mem a hx))]
    · simp only [hq, Bool.not_true, ite_false]
      exact ih (fun x hx => h x (List.mem_cons_of_mem a hx))

/-- Filtering out the empty buckets does not change the summed sizes. -/
theorem sum_filter_nonempty {α : Type} (L : List (α × List Student)) :
    ((L.filter (fun ig => !ig.2.isEmpty)).map (fun ig => ig.2.length)).sum
      = (L.map (fun ig => ig.2.length)).sum := by
  induction L with
  | nil => rfl
  | cons a L ih =>
    obtain ⟨i, g⟩ := a
    cases g with
    | nil => simp [List.filter_cons, ih]
    | cons x gs => simp [List.filter_cons, ih]

/-- Reassociating a residue cursor: reducing the left summand modulo k
before adding does not change the remainder. -/
theorem mod_add_mod_left (a b k : Nat) : (a % k + b) % k = (a + b) % k := by
  have h : a % k ≡ a [MOD k] := Nat.mod_mod_of_dvd a dvd_rfl
  exact h.add_right b

/-- A full wrap of the cursor lands back on itself. -/
theorem add_self_mod (a k : Nat) (h : a < k) : (a + k) % k = a := by
  rw [Nat.add_mod_right, Nat.mod_eq_of_lt h]

/-- The advanced cursor stays below the modulus. -/
theorem succ_mod_lt (c k : Nat) (h : c < k) : (c + 1) % k < k :=
  Nat.mod_lt _ (by omega)

/-- A stable insertion permutes the pushed-in element to the front. -/
theorem pyInsert_perm {α : Type} (le : α → α → Bool) (x : α) (l : List α) :
    (pyInsert le x l).Perm (x :: l) := by
  induction l with
  | nil => exact List.Perm.refl _
  | cons y ys ih =>
    rw [pyInsert]
    split
    · exact List.Perm.refl _
    · exact ((ih.cons y).trans (List.Perm.swap x y ys))

/-- The stable sort permutes its input. -/
theorem pySort_perm {α : Type} (le : α → α → Bool) (l : List α) :
    (pySort le l).Perm l := by
  induction l with
  | nil => exact List.Perm.refl _
  | cons x xs ih =>
    rw [pySort]
    exact (pyInsert_perm le x (pySort le xs)).trans (ih.cons x)

/-- Membership in a stable insertion. -/
theorem mem_pyInsert {α : Type} (le : α → α → Bool) (x y : α) (l : List α)
    (h : y ∈ pyInsert le x l) : y = x ∨ y ∈ l := by
  have := (pyInsert_perm le x l).mem_iff.mp h
  simpa using this

/-- A stable insertion into a sorted list is sorted, given a total
transitive comparison. -/
theorem pyInsert_pairwise {α : Type} (le : α → α → Bool)
    (htot : ∀ a b, le a b = true ∨ le b a = true)
    (htrans : ∀ a b c, le a b = true → le b c = true → le a c = true)
    (x : α) (l : List α) (h : List.Pairwise (fun a b => le a b = true) l) :
    List.Pairwise (fun a b => le a b = true) (pyInsert le x l) := by
  induction l with
  | nil => exact List.pairwise_singleton _ x
  | cons y ys ih =>
    rw [pyInsert]
    rcases List.pairwise_cons.mp h with ⟨hy, hys⟩
    split
    · next hxy =>
      refine List.pairwise_cons.mpr ⟨?_, h⟩
      intro z hz
      rcases List.mem_cons.mp hz with rfl | hz
      · exact hxy
      · exact htrans x y z hxy (hy z hz)
    · next hxy =>
      have hyx : le y x = true := by
        rcases htot x y with h1 | h1
        · exact absurd h1 hxy
        · exact h1
      refine List.pairwise_cons.mpr ⟨?_, ih hys⟩
      intro z hz
      rcases mem_pyInsert le x z ys hz with rfl | hz
      · exact hyx
      · exact hy z hz

/-- The stable sort sorts, given a total transitive comparison. -/
theorem pySort_pairwise {α : Type} (le : α → α → Bool)
    (htot : ∀ a b, le a b = true ∨ le b a = true)
    (htrans : ∀ a b c, le a b = true → le b c = true → le a c = true)
    (l : List α) : List.Pairwise (fun a b => le a b = true) (pySort le l) := by
  induction l with
  | nil => exact List.Pairwise.nil
  | cons x xs ih => exact pyInsert_pairwise le htot htrans x (pySort le xs) ih

/-- Inserting an element that satisfies p puts it at the head of the
p-filtered list, when p-elements never strictly precede it. -/
theorem filter_pyInsert_pos {α : Type} (le : α → α → Bool) (p : α → Bool)
    (x : α) (l : List α) (hx : p x = true)
    (himp : ∀ y, p y = true → le x y = true) :
    (pyInsert le x l).filter p = x :: l.filter p := by
  induction l with
  | nil => simp [pyInsert, List.filter_cons, hx]
  | cons y ys ih =>
    rw [pyInsert]
    split
    · rw [List.filter_cons, hx]
      rfl
    · next hxy =>
      have hpy : p y = false := by
        rcases hp : p y with _ | _
        · rfl
        · exact absurd (himp y hp) hxy
      rw [List.filter_cons, hpy, List.filter_cons, hpy]
      simpa using ih

/-- Inserting an element that fails p leaves the p-filtered list alone. -/
theorem filter_pyInsert_neg {α : Type} (le : α → α → Bool) (p : α → Bool)
    (x : α) (l : List α) (hx : p x = false) :
    (pyInsert le x l).filter p = l.filter p := by
  induction l with
  | nil => simp [pyInsert, List.filter_cons, hx]
  | cons y ys ih =>
    rw [pyInsert]
    split
    · rw [List.filter_cons, hx]
      rfl
    · rw [List.filter_cons, List.filter_cons]
      rcases hp : p y with _ | _
      · simpa using ih
      · simpa using ih

/-- Stability of the stable sort: restricted to any class of elements that
compare mutually less-or-equal, the sort preserves the input order. -/
theorem filter_pySort {α : Type} (le : α → α → Bool) (p : α → Bool)
    (hcl : ∀ a b, p a = true → p b = true → le a b = true) (l : List α) :
    (pySort le l).filter p = l.filter p := by
  induction l with
  | nil => rfl
  | cons x xs ih =>
    rw [pySort]
    rcases hp : p x with _ | _
    · rw [filter_pyInsert_neg le p x (pySort le xs) hp, ih, List.filter_cons, hp]
      rfl
    · rw [filter_pyInsert_pos le p x (pySort le xs) hp (fun y hy => hcl x y hp hy), ih,
        List.filter_cons, hp]
      rfl

/-- The code-point comparison of character lists is total. -/
theorem chListLe_total : ∀ as bs : List Char,
    chListLe as bs = true ∨ chListLe bs as = true := by
  intro as
  induction as with
  | nil => intro bs; left; rfl
  | cons a as ih =>
    intro bs
    cases bs with
    | nil => right; rfl
    | cons b bs =>
      rw [chListLe, chListLe]
      rcases Nat.lt_trichotomy a.toNat b.toNat with h | h | h
      · left; rw [if_pos h]
      · rw [if_neg (by omega), if_neg (by omega), if_neg (by omega), if_neg (by omega)]
        exact ih bs
      · right; rw [if_pos h]

/-- The code-point comparison of character lists is transitive. -/
theorem chListLe_trans : ∀ as bs cs : List Char,
    chListLe as bs = true → chListLe bs cs = true → chListLe as cs = true := by
  intro as
  induction as with
  | nil => intro bs cs _ _; rfl
  | cons a as ih =>
    intro bs cs h1 h2
    cases bs with
    | nil => exact absurd h1 (by rw [chListLe]; simp)
    | cons b bs =>
      cases cs with
      | nil => exact absurd h2 (by rw [chListLe]; simp)
      | cons c cs =>
        rw [chListLe] at h1 h2 ⊢
        rcases Nat.lt_trichotomy a.toNat b.toNat with hab | hab | hab
        · rcases Nat.lt_trichotomy b.toNat c.toNat with hbc | hbc | hbc
          · rw [if_pos (by omega)]
          · rw [if_pos (by omega)]
          · rw [if_pos hbc, if_neg (by omega)] at h2
            exact absurd h2 (by simp)
        · rcases Nat.lt_trichotomy b.toNat c.toNat with hbc | hbc | hbc
          · rw [if_pos (by omega)]
          · rw [if_neg (by omega), if_neg (by omega)]
            rw [if_neg (by omega), if_neg (by omega)] at h1
            rw [if_neg (by omega), if_neg (by omega)] at h2
            exact ih bs cs h1 h2
          · rw [if_pos hbc, if_neg (by omega)] at h2
            exact absurd h2 (by simp)
        · rw [if_neg (by omega), if_pos hab] at h1
          exact absurd h1 (by simp)

/-- Python string comparison is total. -/
theorem strLe_total (a b : String) : strLe a b = true ∨ strLe b a = true :=
  chListLe_total a.data b.data

/-- Python string comparison is transitive. -/
theorem strLe_trans (a b c : String) (h1 : strLe a b = true)
    (h2 : strLe b c = true) : strLe a c = true :=
  chListLe_trans a.data b.data c.data h1 h2

/-- The size-descending comparison is total. -/
theorem byCountDesc_total (a b : String × List Student) :
    byCountDesc a b = true ∨ byCountDesc b a = true := by
  rw [byCountDesc, byCountDesc, decide_eq_true_eq, decide_eq_true_eq]
  omega

/-- The size-descending comparison is transitive. -/
theorem byCountDesc_trans (a b c : String × List Student)
    (h1 : byCountDesc a b = true) (h2 : byCountDesc b c = true) :
    byCountDesc a c = true := by
  rw [byCountDesc, decide_eq_true_eq] at h1 h2 ⊢
  omega

/-- Appending one record to one bucket permutes the flattened buckets to the
old flattening plus that record. -/
theorem flatten_set_append (gs : List (List Student)) (i : Nat) (s : Student)
    (h : i < gs.length) :
    ((gs.set i (gs.getD i [] ++ [s])).flatten).Perm (gs.flatten ++ [s]) := by
  have hget : gs.getD i [] = gs[i] := by
    rw [List.getD_eq_getElem?_getD, List.getElem?_eq_getElem h]
    rfl
  have hsplit : gs = gs.take i ++ gs[i] :: gs.drop (i + 1) := by
    conv_lhs => rw [← List.take_append_drop i gs]
    rw [List.drop_eq_getElem_cons h]
  have hset : gs.set i (gs.getD i [] ++ [s])
      = gs.take i ++ (gs.getD i [] ++ [s]) :: gs.drop (i + 1) :=
    List.set_eq_take_cons_drop _ h
  rw [hset, hget]
  conv_rhs => rw [hsplit]
  simp only [List.flatten_append, List.flatten_cons, List.append_assoc]
  exact ((List.perm_append_comm.append_left _).append_left _)

/-- The round-robin fold never changes how many buckets there are. -/
theorem branchwise_foldl_length (k : Nat) :
    ∀ (l : List Student) (gs : List (List Student)) (c : Nat),
      ((l.foldl (branchwiseStep k) (gs, c)).1).length = gs.length := by
  intro l
  induction l with
  | nil => intro gs c; rfl
  | cons s rest ih =>
    intro gs c
    rw [List.foldl_cons, branchwiseStep]
    rw [ih]
    exact List.length_set gs _ _

/-- The records the round-robin fold accumulates: the flattened buckets end
up a permutation of the starting contents plus the processed records. -/
theorem branchwise_foldl_flatten_perm (k : Nat) :
    ∀ (l : List Student) (gs : List (List Student)) (c : Nat),
      gs.length = k → c < k →
      ((l.foldl (branchwiseStep k) (gs, c)).1.flatten).Perm (gs.flatten ++ l) := by
  intro l
  induction l with
  | nil => intro gs c _ _; simp
  | cons s rest ih =>
    intro gs c hlen hc
    rw [List.foldl_cons, branchwiseStep]
    have hc' : c < gs.length := by omega
    have h1 := ih (gs.set c (gs.getD c [] ++ [s])) ((c + 1) % k)
      (by rw [List.length_set]; exact hlen) (succ_mod_lt c k hc)
    have h2 := (flatten_set_append gs c s hc').append_right rest
    have h3 := h1.trans h2
    rwa [List.append_assoc, List.singleton_append] at h3

/-- The size-balanced fold never changes how many buckets there are. -/
theorem uniform_foldl_length (k target : Nat) :
    ∀ (l : List Student) (gs : List (List Student)) (c : Nat),
      ((l.foldl (uniformStep k target) (gs, c)).1).length = gs.length := by
  intro l
  induction l with
  | nil => intro gs c; rfl
  | cons s rest ih =>
    intro gs c
    rw [List.foldl_cons, uniformStep]
    rw [ih]
    exact List.length_set gs _ _

/-- The records the size-balanced fold accumulates: the flattened buckets
end up a permutation of the starting contents plus the processed records. -/
theorem uniform_foldl_flatten_perm (k target : Nat) (hk : 1 ≤ k) :
    ∀ (l : List Student) (gs : List (List Student)) (c : Nat),
      gs.length = k → c ≤ k - 1 →
      ((l.foldl (uniformStep k target) (gs, c)).1.flatten).Perm (gs.flatten ++ l) := by
  intro l
  induction l with
  | nil => intro gs c _ _; simp
  | cons s rest ih =>
    intro gs c hlen hc
    rw [List.foldl_cons, uniformStep]
    set g := if target ≤ (gs.getD c []).length ∧ c < k - 1 then c + 1 else c with hg
    have hgle : g ≤ k - 1 := by
      rw [hg]
      split
      · next hcond => omega
      · exact hc
    have hglt : g < gs.length := by omega
    have h1 := ih (gs.set g (gs.getD g [] ++ [s])) g
      (by rw [List.length_set]; exact hlen) hgle
    have h2 := (flatten_set_append gs g s hglt).append_right rest
    have h3 := h1.trans h2
    rwa [List.append_assoc, List.singleton_append] at h3

/-- The round-robin nested loops as a single fold over the records in
visiting order. -/
theorem branchwise_eq_flat_foldl (branches : CategoryIndex) (k : Nat) :
    create_and_save_branchwise_groups branches k
      = ((allSortedRecords branches).foldl (branchwiseStep k)
          (List.replicate k [], 0)).1 := by
  rw [create_and_save_branchwise_groups, allSortedRecords, List.flatMap_def,
    List.foldl_flatten, List.foldl_map]

/-- The size-balanced nested loops as a single fold over the records in
visiting order. -/
theorem uniform_eq_flat_foldl (branches : CategoryIndex) (k : Nat) :
    create_and_save_uniform_groups branches k
      = ((allBySizeRecords branches).foldl (uniformStep k (targetSize branches k))
          (List.replicate k [], 0)).1 := by
  rw [create_and_save_uniform_groups, allBySizeRecords, List.flatMap_def,
    List.foldl_flatten, List.foldl_map]

/-- Exact-key search in a duplicate-free association list finds a listed
entry itself. -/
theorem find_entry_of_nodup (branches : CategoryIndex) (p : String × List Student)
    (hN : keysNodup branches) (hm : p ∈ branches) :
    branches.find? (fun q => q.1 == p.1) = some p := by
  induction branches with
  | nil => cases hm
  | cons q rest ih =>
    rw [keysNodup, List.map_cons, List.nodup_cons] at hN
    rcases List.mem_cons.mp hm with rfl | hm2
    · rw [List.find?_cons_of_pos _ (by simp)]
    · have hne : (q.1 == p.1) = false := by
        rw [beq_eq_false_iff_ne]
        intro he
        exact hN.1 (he ▸ List.mem_map_of_mem Prod.fst hm2)
      rw [List.find?_cons_of_neg _ (by simp [hne])]
      exact ih hN.2 hm2

/-- Looking a listed branch up in a duplicate-free index gives its records. -/
theorem lookupBranch_eq (branches : CategoryIndex) (c : String) (rs : List Student)
    (hN : keysNodup branches) (hm : (c, rs) ∈ branches) :
    lookupBranch branches c = rs := by
  rw [lookupBranch, find_entry_of_nodup branches (c, rs) hN hm]

/-- A record a lookup returns belongs to some entry under the looked-up key. -/
theorem mem_of_mem_lookupBranch (branches : CategoryIndex) (c : String) (s : Student)
    (h : s ∈ lookupBranch branches c) :
    ∃ p ∈ branches, p.1 = c ∧ s ∈ p.2 := by
  rw [lookupBranch] at h
  rcases hf : branches.find? (fun p => p.1 == c) with _ | p
  · rw [hf] at h
    cases h
  · rw [hf] at h
    refine ⟨p, List.mem_of_find?_eq_some hf, ?_, h⟩
    have := List.find?_some hf
    rwa [beq_iff_eq] at this

/-- The round-robin visiting order is a permutation of the index records. -/
theorem allSortedRecords_perm (branches : CategoryIndex) (hN : keysNodup branches) :
    (allSortedRecords branches).Perm (allRecords branches) := by
  rw [allSortedRecords, allRecords]
  have h1 : ((sortedKeys branches).flatMap (lookupBranch branches)).Perm
      ((branches.map Prod.fst).flatMap (lookupBranch branches)) :=
    (pySort_perm strLe (branches.map Prod.fst)).flatMap_right _
  have h2 : (branches.map Prod.fst).flatMap (lookupBranch branches)
      = branches.flatMap (fun p => p.2) := by
    rw [List.flatMap_def, List.flatMap_def, List.map_map]
    congr 1
    refine List.map_congr_left ?_
    intro p hp
    exact lookupBranch_eq branches p.1 p.2 hN hp
  rw [h2] at h1
  exact h1

/-- The size-balanced visiting order is a permutation of the index records. -/
theorem allBySizeRecords_perm (branches : CategoryIndex) :
    (allBySizeRecords branches).Perm (allRecords branches) := by
  rw [allBySizeRecords, allRecords]
  exact (pySort_perm byCountDesc branches).flatMap_right _

/-- The flattened index has exactly totalRecords records. -/
theorem length_allRecords (branches : CategoryIndex) :
    (allRecords branches).length = totalRecords branches := by
  rw [allRecords, totalRecords, List.flatMap_def, List.length_flatten, List.map_map]
  rfl

/-- What the round-robin fold does, bucket by bucket: the final cursor
advances by the number of processed records modulo k, and every bucket ends
up with its starting contents followed by exactly the records the spec's
cursor description assigns to it. -/
theorem branchwise_foldl_spec (k : Nat) :
    ∀ (l : List Student) (gs : List (List Student)) (c : Nat),
      gs.length = k → c < k →
      ((l.foldl (branchwiseStep k) (gs, c)).2 = (c + l.length) % k) ∧
      (∀ i, i < k →
        (l.foldl (branchwiseStep k) (gs, c)).1.getD i []
          = gs.getD i [] ++ specRoundRobinPick k i c l) := by
  intro l
  induction l with
  | nil =>
    intro gs c _ hc
    constructor
    · simpa using (Nat.mod_eq_of_lt hc).symm
    · intro i _
      simp [specRoundRobinPick]
  | cons s rest ih =>
    intro gs c hlen hc
    rw [List.foldl_cons, branchwiseStep]
    obtain ⟨ih1, ih2⟩ := ih (gs.set c (gs.getD c [] ++ [s])) ((c + 1) % k)
      (by rw [List.length_set]; exact hlen) (succ_mod_lt c k hc)
    constructor
    · rw [ih1, mod_add_mod_left, List.length_cons]
      congr 1
      omega
    · intro i hi
      rw [ih2 i hi, getD_set_index _ _ c i _ (by omega)]
      by_cases hci : c = i
      · subst hci
        rw [if_pos rfl]
        simp [specRoundRobinPick, List.append_assoc]
      · rw [if_neg hci]
        simp [specRoundRobinPick, hci]

/-- Each round-robin bucket holds exactly the records the spec's carried
cursor assigns to it, starting from cursor zero. -/
theorem branchwise_getD_spec (branches : CategoryIndex) (k : Nat) (i : Nat)
    (hk : 1 ≤ k) (hi : i < k) :
    (create_and_save_branchwise_groups branches k).getD i []
      = specRoundRobinPick k i 0 (allSortedRecords branches) := by
  rw [branchwise_eq_flat_foldl]
  have h := (branchwise_foldl_spec k (allSortedRecords branches)
    (List.replicate k []) 0 (by simp) (by omega)).2 i hi
  rw [h, getD_replicate_nil]
  rfl

/-- Splitting the visited records splits the spec selection, with the
cursor advanced by the length of the first block. -/
theorem specRoundRobinPick_append (k i : Nat) (l₁ l₂ : List Student) :
    ∀ c, c < k →
      specRoundRobinPick k i c (l₁ ++ l₂)
        = specRoundRobinPick k i c l₁
          ++ specRoundRobinPick k i ((c + l₁.length) % k) l₂ := by
  induction l₁ with
  | nil =>
    intro c hc
    simp [specRoundRobinPick, Nat.mod_eq_of_lt hc]
  | cons s rest ih =>
    intro c hc
    have hcur : ((c + 1) % k + rest.length) % k = (c + (s :: rest).length) % k := by
      rw [mod_add_mod_left, List.length_cons]
      congr 1
      omega
    rw [List.cons_append]
    simp only [specRoundRobinPick]
    rw [ih ((c + 1) % k) (succ_mod_lt c k hc), hcur, List.append_assoc]

/-- Selected records come from the visited list. -/
theorem mem_specRoundRobinPick (k i : Nat) :
    ∀ (l : List Student) (c : Nat) (x : Student),
      x ∈ specRoundRobinPick k i c l → x ∈ l := by
  intro l
  induction l with
  | nil =>
    intro c x h
    simp [specRoundRobinPick] at h
  | cons s rest ih =>
    intro c x h
    rw [specRoundRobinPick] at h
    rcases List.mem_append.mp h with h1 | h1
    · by_cases hci : c = i
      · rw [if_pos hci] at h1
        rcases List.mem_singleton.mp h1 with rfl
        exact List.mem_cons_self _ _
      · rw [if_neg hci] at h1
        cases h1
    · exact List.mem_cons_of_mem s (ih ((c + 1) % k) x h1)

/-- How many records a bucket receives from one block of visited records:
one per cursor position congruent to the bucket index. -/
theorem length_specRoundRobinPick (k i : Nat) :
    ∀ (l : List Student) (c : Nat),
      (specRoundRobinPick k i c l).length = residCount k i c l.length := by
  intro l
  induction l with
  | nil =>
    intro c
    simp [specRoundRobinPick, residCount]
  | cons s rest ih =>
    intro c
    simp only [specRoundRobinPick, List.length_append, List.length_cons, residCount]
    rw [ih ((c + 1) % k)]
    split <;> simp

/-- Selecting from records that all fail a test yields nothing after the
test is applied. -/
theorem filter_specRoundRobinPick_false (k i : Nat) (p : Student → Bool)
    (l : List Student) (c : Nat) (h : ∀ x ∈ l, p x = false) :
    (specRoundRobinPick k i c l).filter p = [] := by
  rw [List.filter_eq_nil_iff]
  intro x hx
  rw [h x (mem_specRoundRobinPick k i l c x hx)]
  exact Bool.false_ne_true

/-- Selecting from records that all pass a test is unchanged by the test. -/
theorem filter_specRoundRobinPick_true (k i : Nat) (p : Student → Bool)
    (l : List Student) (c : Nat) (h : ∀ x ∈ l, p x = true) :
    (specRoundRobinPick k i c l).filter p = specRoundRobinPick k i c l := by
  rw [List.filter_eq_self]
  intro x hx
  exact h x (mem_specRoundRobinPick k i l c x hx)

/-- Residue counts over adjacent blocks add, with the cursor advanced. -/
theorem residCount_add (k i : Nat) :
    ∀ (m n c : Nat), c < k →
      residCount k i c (m + n)
        = residCount k i c m + residCount k i ((c + m) % k) n := by
  intro m
  induction m with
  | zero =>
    intro n c hc
    simp [residCount, Nat.mod_eq_of_lt hc]
  | succ m ih =>
    intro n c hc
    have e : m + 1 + n = (m + n) + 1 := by omega
    rw [e]
    simp only [residCount]
    rw [ih n ((c + 1) % k) (succ_mod_lt c k hc)]
    have hcur : ((c + 1) % k + m) % k = (c + (m + 1)) % k := by
      rw [mod_add_mod_left]
      congr 1
      omega
    rw [hcur]
    omega

/-- Peeling the last of a block of cursor positions. -/
theorem residCount_peel_last (k i c n : Nat) (hc : c < k) :
    residCount k i c (n + 1)
      = residCount k i c n + (if (c + n) % k = i then 1 else 0) := by
  rw [residCount_add k i n 1 c hc]
  simp [residCount]

/-- The residue count as a cardinality over the block of offsets. -/
theorem residCount_eq_card (k i : Nat) :
    ∀ (n c : Nat), c < k →
      residCount k i c n
        = ((Finset.range n).filter (fun m => (c + m) % k = i)).card := by
  intro n
  induction n with
  | zero =>
    intro c _
    simp [residCount]
  | succ n ih =>
    intro c hc
    rw [residCount_peel_last k i c n hc, ih c hc, Finset.range_succ,
      Finset.filter_insert]
    by_cases hp : (c + n) % k = i
    · rw [if_pos hp, if_pos hp, Finset.card_insert_of_not_mem (by simp)]
    · rw [if_neg hp, if_neg hp]
      simp

/-- One full cycle of the cursor meets every bucket exactly once. -/
theorem residCount_cycle (k i c : Nat) (hc : c < k) (hi : i < k) :
    residCount k i c k = 1 := by
  have hk : 0 < k := by omega
  rw [residCount_eq_card k i k c hc, Finset.card_eq_one]
  refine ⟨(i + k - c) % k, ?_⟩
  have hj : (c + (i + k - c) % k) % k = i := by
    have h1 : (i + k - c) % k ≡ i + k - c [MOD k] := Nat.mod_mod_of_dvd _ dvd_rfl
    have h2 : (c + (i + k - c) % k) % k = (c + (i + k - c)) % k := h1.add_left c
    have h3 : c + (i + k - c) = i + k := by omega
    rw [h2, h3, add_self_mod i k hi]
  ext m
  simp only [Finset.mem_filter, Finset.mem_range, Finset.mem_singleton]
  constructor
  · rintro ⟨hm, hmod⟩
    have heq : (c + m) % k = (c + (i + k - c) % k) % k := by rw [hmod, hj]
    have hcancel : m % k = ((i + k - c) % k) % k :=
      Nat.ModEq.add_left_cancel' c heq
    rwa [Nat.mod_eq_of_lt hm, Nat.mod_eq_of_lt (Nat.mod_lt _ hk)] at hcancel
  · rintro rfl
    exact ⟨Nat.mod_lt _ hk, hj⟩

/-- Whole cycles distribute evenly. -/
theorem residCount_mul (k i c q : Nat) (hc : c < k) (hi : i < k) :
    residCount k i c (q * k) = q := by
  induction q with
  | zero => simp [residCount]
  | succ q ih =>
    have hk : 0 < k := by omega
    have e : (q + 1) * k = q * k + k := by ring
    rw [e, residCount_add k i (q * k) k c hc, ih,
      residCount_cycle k i _ (Nat.mod_lt _ hk) hi]

/-- Within a single cycle each bucket receives at most one record. -/
theorem residCount_le_one (k i c n : Nat) (hc : c < k) (hi : i < k) (hn : n ≤ k) :
    residCount k i c n ≤ 1 := by
  have h := residCount_add k i n (k - n) c hc
  have e : n + (k - n) = k := by omega
  rw [e, residCount_cycle k i c hc hi] at h
  omega

/-- Every bucket receives either the floor or the ceiling of its fair
share of a block of consecutive cursor positions. -/
theorem residCount_bounds (k i c n : Nat) (hc : c < k) (hi : i < k) :
    n / k ≤ residCount k i c n ∧ residCount k i c n ≤ n / k + 1 := by
  have hk : 0 < k := by omega
  have h0 := Nat.div_add_mod n k
  have hsplit : n = n / k * k + n % k := by
    rw [Nat.mul_comm] at h0
    omega
  have h := residCount_add k i (n / k * k) (n % k) c hc
  rw [← hsplit, residCount_mul k i c (n / k) hc hi] at h
  have hrest := residCount_le_one k i ((c + n / k * k) % k) (n % k)
    (Nat.mod_lt _ hk) hi (le_of_lt (Nat.mod_lt _ hk))
  omega

/-- Two buckets never differ by more than one in their share of one block
of consecutive cursor positions. -/
theorem residCount_diff_le_one (k i j c n : Nat) (hc : c < k) (hi : i < k)
    (hj : j < k) :
    residCount k i c n ≤ residCount k j c n + 1 := by
  have h1 := residCount_bounds k i c n hc hi
  have h2 := residCount_bounds k j c n hc hj
  omega

/-- Flattening empty buckets gives no records. -/
theorem flatten_replicate_nil {α : Type} (k : Nat) :
    (List.replicate k ([] : List α)).flatten = [] := by
  induction k with
  | zero => rfl
  | succ k ih => rw [List.replicate_succ, List.flatten_cons, List.nil_append, ih]

/-- The summed sizes of an all-full prefix of the bucket list. -/
theorem sum_take_map_length (target : Nat) :
    ∀ (gs : List (List Student)) (m : Nat), m ≤ gs.length →
      (∀ t, t < m → (gs.getD t []).length = target) →
      ((gs.take m).map List.length).sum = m * target := by
  intro gs
  induction gs with
  | nil =>
    intro m hm _
    have : m = 0 := by simpa using hm
    subst this
    simp
  | cons g gs ih =>
    intro m hm h
    cases m with
    | zero => simp
    | succ m =>
      rw [List.take_succ_cons, List.map_cons, List.sum_cons]
      have h0 : g.length = target := h 0 (by omega)
      have hrec := ih m (by simpa using hm)
        (fun t ht => by
          have := h (t + 1) (by omega)
          rwa [List.getD_cons_succ] at this)
      rw [h0, hrec]
      ring

/-- The ceiling target times the bucket count covers all records. -/
theorem total_le_mul_target (branches : CategoryIndex) (k : Nat) (hk : 1 ≤ k) :
    totalRecords branches ≤ k * targetSize branches k := by
  rw [targetSize]
  have h0 := Nat.div_add_mod (totalRecords branches + k - 1) k
  have h1 : (totalRecords branches + k - 1) % k < k := Nat.mod_lt _ (by omega)
  omega

/-- At least one record forces a positive target. -/
theorem one_le_target (branches : CategoryIndex) (k : Nat) (hk : 1 ≤ k)
    (hT : 1 ≤ totalRecords branches) : 1 ≤ targetSize branches k := by
  rw [targetSize]
  rw [Nat.le_div_iff_mul_le (by omega)]
  omega

/-- The running invariant of the size-balanced fold: the cursor never
passes the last bucket, every bucket behind the cursor is exactly full,
every bucket ahead of it is empty, and a non-last cursor bucket never
exceeds the target. -/
theorem uniform_foldl_invariant (k target : Nat) (hk : 1 ≤ k) (htarget : 1 ≤ target) :
    ∀ (l : List Student) (gs : List (List Student)) (c : Nat),
      gs.length = k → c ≤ k - 1 →
      (∀ t, t < c → (gs.getD t []).length = target) →
      (c < k - 1 → (gs.getD c []).length ≤ target) →
      (∀ t, c < t → (gs.getD t []).length = 0) →
      ((l.foldl (uniformStep k target) (gs, c)).2 ≤ k - 1 ∧
       (∀ t, t < (l.foldl (uniformStep k target) (gs, c)).2 →
         ((l.foldl (uniformStep k target) (gs, c)).1.getD t []).length = target) ∧
       ((l.foldl (uniformStep k target) (gs, c)).2 < k - 1 →
         ((l.foldl (uniformStep k target) (gs, c)).1.getD
           (l.foldl (uniformStep k target) (gs, c)).2 []).length ≤ target) ∧
       (∀ t, (l.foldl (uniformStep k target) (gs, c)).2 < t →
         ((l.foldl (uniformStep k target) (gs, c)).1.getD t []).length = 0)) := by
  intro l
  induction l with
  | nil =>
    intro gs c hlen hc h1 h2 h3
    exact ⟨hc, h1, h2, h3⟩
  | cons s rest ih =>
    intro gs c hlen hc h1 h2 h3
    rw [List.foldl_cons, uniformStep]
    dsimp only
    by_cases hcond : target ≤ (gs.getD c []).length ∧ c < k - 1
    · rw [if_pos hcond]
      refine ih _ (c + 1) (by rw [List.length_set]; exact hlen) (by omega) ?_ ?_ ?_
      · intro t ht
        rw [getD_set_index _ _ (c + 1) t _ (by omega)]
        rw [if_neg (by omega)]
        rcases Nat.lt_or_ge t c with h | h
        · exact h1 t h
        · have : t = c := by omega
          subst this
          have := h2 hcond.2
          omega
      · intro hlt
        rw [getD_set_index _ _ (c + 1) (c + 1) _ (by omega), if_pos rfl]
        rw [List.length_append]
        have h0 : (gs.getD (c + 1) []).length = 0 := h3 (c + 1) (by omega)
        simp only [List.length_singleton]
        omega
      · intro t ht
        rw [getD_set_index _ _ (c + 1) t _ (by omega), if_neg (by omega)]
        exact h3 t (by omega)
    · rw [if_neg hcond]
      refine ih _ c (by rw [List.length_set]; exact hlen) hc ?_ ?_ ?_
      · intro t ht
        rw [getD_set_index _ _ c t _ (by omega), if_neg (by omega)]
        exact h1 t ht
      · intro hlt
        rw [getD_set_index _ _ c c _ (by omega), if_pos rfl]
        rw [List.length_append]
        have hlow : (gs.getD c []).length < target := by
          rcases Nat.lt_or_ge (gs.getD c []).length target with h | h
          · exact h
          · exact absurd ⟨h, hlt⟩ hcond
        simp only [List.length_singleton]
        omega
      · intro t ht
        rw [getD_set_index _ _ c t _ (by omega), if_neg (by omega)]
        exact h3 t ht

/-- Every bucket of a size-balanced run, the last one included, holds at
most the ceiling target: non-last buckets are capped by the cursor rule,
and the last one receives only what the full prefix leaves over. -/
theorem uniform_bucket_bound_aux (branches : CategoryIndex) (k : Nat) (hk : 2 ≤ k) :
    ∀ i, i < k →
      ((create_and_save_uniform_groups branches k).getD i []).length
        ≤ targetSize branches k := by
  intro i hi
  rw [uniform_eq_flat_foldl]
  by_cases hT : totalRecords branches = 0
  · have hlen0 : (allBySizeRecords branches).length = 0 := by
      rw [(allBySizeRecords_perm branches).length_eq, length_allRecords, hT]
    have hnil : allBySizeRecords branches = [] := List.length_eq_zero.mp hlen0
    rw [hnil]
    simp only [List.foldl_nil]
    rw [getD_replicate_nil]
    simp
  · have htarget : 1 ≤ targetSize branches k :=
      one_le_target branches k (by omega) (by omega)
    have hinv := uniform_foldl_invariant k (targetSize branches k) (by omega) htarget
      (allBySizeRecords branches) (List.replicate k []) 0
      (by simp) (by omega)
      (fun t ht => by omega)
      (fun _ => by rw [getD_replicate_nil]; simp)
      (fun t _ => by rw [getD_replicate_nil]; rfl)
    obtain ⟨hcur, hfull, hcap, hempty⟩ := hinv
    set res := (allBySizeRecords branches).foldl
      (uniformStep k (targetSize branches k)) (List.replicate k [], 0) with hres
    rcases Nat.lt_trichotomy i res.2 with hlt | heq | hgt
    · rw [hfull i hlt]
    · subst heq
      rcases Nat.lt_or_ge res.2 (k - 1) with hlast | hlast
      · exact hcap hlast
      · have hcureq : res.2 = k - 1 := by omega
        have hreslen : res.1.length = k := by
          rw [hres]
          rw [uniform_foldl_length]
          simp
        have hflat : (res.1.flatten).Perm (allBySizeRecords branches) := by
          have h := uniform_foldl_flatten_perm k (targetSize branches k) (by omega)
            (allBySizeRecords branches) (List.replicate k []) 0 (by simp) (by omega)
          rwa [flatten_replicate_nil, List.nil_append] at h
        have hsum : (res.1.map List.length).sum = totalRecords branches := by
          rw [← List.length_flatten, hflat.length_eq,
            (allBySizeRecords_perm branches).length_eq, length_allRecords]
        have hsplit : res.1 = res.1.take (k - 1) ++ res.1.drop (k - 1) :=
          (List.take_append_drop (k - 1) res.1).symm
        have hdrop : res.1.drop (k - 1) = [res.1.getD (k - 1) []] := by
          have := drop_length_sub_one res.1 ([] : List Student) (by omega)
          rwa [hreslen] at this
        have htake : ((res.1.take (k - 1)).map List.length).sum
            = (k - 1) * targetSize branches k := by
          refine sum_take_map_length (targetSize branches k) res.1 (k - 1) (by omega) ?_
          intro t ht
          exact hfull t (by omega)
        have hsum2 : ((res.1.take (k - 1)).map List.length).sum
            + (res.1.getD (k - 1) []).length = totalRecords branches := by
          rw [← hsum]
          conv_rhs => rw [hsplit]
          rw [List.map_append, List.sum_append, hdrop]
          simp
        have hcover := total_le_mul_target branches k (by omega)
        have hdistrib : ∀ t : Nat, (k - 1) * t + t = k * t := by
          intro t
          have hkeq : k = (k - 1) + 1 := by omega
          conv_rhs => rw [hkeq]
          ring
        have hdist2 := hdistrib (targetSize branches k)
        rw [htake] at hsum2
        rw [hcureq]
        omega
    · rw [hempty i hgt]
      omega

/-- Round-robin conservation: the flattened buckets permute the index. -/
theorem branchwise_flatten_perm (branches : CategoryIndex) (k : Nat)
    (hN : keysNodup branches) (hk : 1 ≤ k) :
    ((create_and_save_branchwise_groups branches k).flatten).Perm
      (allRecords branches) := by
  rw [branchwise_eq_flat_foldl]
  have h := branchwise_foldl_flatten_perm k (allSortedRecords branches)
    (List.replicate k []) 0 (by simp) (by omega)
  rw [flatten_replicate_nil, List.nil_append] at h
  exact h.trans (allSortedRecords_perm branches hN)

/-- Size-balanced conservation: the flattened buckets permute the index. -/
theorem uniform_flatten_perm (branches : CategoryIndex) (k : Nat) (hk : 1 ≤ k) :
    ((create_and_save_uniform_groups branches k).flatten).Perm
      (allRecords branches) := by
  rw [uniform_eq_flat_foldl]
  have h := uniform_foldl_flatten_perm k (targetSize branches k) hk
    (allBySizeRecords branches) (List.replicate k []) 0 (by simp) (by omega)
  rw [flatten_replicate_nil, List.nil_append] at h
  exact h.trans (allBySizeRecords_perm branches)

/-- String equality tests are symmetric. -/
theorem beq_symm_str (a b : String) : (a == b) = (b == a) := by
  by_cases h : a = b
  · subst h
    rfl
  · rw [beq_eq_false_iff_ne.mpr h, beq_eq_false_iff_ne.mpr (Ne.symm h)]

/-- One category of a round-robin run: some single starting cursor position
s determines every bucket's share of the category, as the residue count of
the category's block of consecutive cursor positions. -/
theorem branchwise_branchCount_eq (branches : CategoryIndex) (k : Nat)
    (cat : String) (rs : List Student)
    (hN : keysNodup branches) (hC : branchConsistent branches)
    (hk : 1 ≤ k) (hmem : (cat, rs) ∈ branches) :
    ∃ s, s < k ∧ ∀ i, i < k →
      branchCount ((create_and_save_branchwise_groups branches k).getD i []) cat
        = residCount k i s rs.length := by
  have hk0 : 0 < k := by omega
  have hcat_keys : cat ∈ branches.map Prod.fst := List.mem_map_of_mem Prod.fst hmem
  have hks : cat ∈ sortedKeys branches :=
    (pySort_perm strLe (branches.map Prod.fst)).mem_iff.mpr hcat_keys
  obtain ⟨l₁, l₂, hsplit⟩ := List.append_of_mem hks
  have hnd : (sortedKeys branches).Nodup :=
    (pySort_perm strLe (branches.map Prod.fst)).nodup_iff.mpr hN
  rw [hsplit] at hnd
  rw [List.nodup_append] at hnd
  have hcat1 : cat ∉ l₁ := fun hmem1 =>
    hnd.2.2 hmem1 (List.mem_cons_self cat l₂)
  have hcat2 : cat ∉ l₂ := (List.nodup_cons.mp hnd.2.1).1
  refine ⟨(l₁.flatMap (lookupBranch branches)).length % k, Nat.mod_lt _ hk0, ?_⟩
  intro i hi
  have hpre : ∀ x ∈ l₁.flatMap (lookupBranch branches), (x.branch == cat) = false := by
    intro x hx
    obtain ⟨c', hc', hxc⟩ := List.mem_flatMap.mp hx
    obtain ⟨p, hp, hpc, hxp⟩ := mem_of_mem_lookupBranch branches c' x hxc
    rw [beq_eq_false_iff_ne]
    rw [hC p hp x hxp, hpc]
    intro he
    exact hcat1 (he ▸ hc')
  have hpost : ∀ x ∈ l₂.flatMap (lookupBranch branches), (x.branch == cat) = false := by
    intro x hx
    obtain ⟨c', hc', hxc⟩ := List.mem_flatMap.mp hx
    obtain ⟨p, hp, hpc, hxp⟩ := mem_of_mem_lookupBranch branches c' x hxc
    rw [beq_eq_false_iff_ne]
    rw [hC p hp x hxp, hpc]
    intro he
    exact hcat2 (he ▸ hc')
  have hrs : ∀ x ∈ rs, (x.branch == cat) = true := by
    intro x hx
    rw [beq_iff_eq]
    exact hC (cat, rs) hmem x hx
  rw [branchwise_getD_spec branches k i hk hi, allSortedRecords, hsplit,
    List.flatMap_append, List.flatMap_cons, lookupBranch_eq branches cat rs hN hmem]
  rw [specRoundRobinPick_append k i _ _ 0 hk0]
  have hs1 : (0 + (l₁.flatMap (lookupBranch branches)).length) % k
      = (l₁.flatMap (lookupBranch branches)).length % k := by
    rw [Nat.zero_add]
  rw [hs1]
  rw [specRoundRobinPick_append k i rs (l₂.flatMap (lookupBranch branches)) _
    (Nat.mod_lt _ hk0)]
  rw [branchCount, List.filter_append, List.filter_append,
    filter_specRoundRobinPick_false k i _ _ _ hpre,
    filter_specRoundRobinPick_false k i _ _ _ hpost,
    filter_specRoundRobinPick_true k i _ _ _ hrs]
  rw [List.nil_append, List.append_nil, length_specRoundRobinPick]

/-- Counting a bucket per branch code over all distinct codes covering its
records accounts for every record exactly once. -/
theorem sum_branchCounts (ks : List String) :
    ∀ (g : List Student), ks.Nodup → (∀ r ∈ g, r.branch ∈ ks) →
      (ks.map (fun b => branchCount g b)).sum = g.length := by
  intro g
  induction g with
  | nil =>
    intro _ _
    rw [sum_map_const_eq ks (fun b => branchCount [] b) 0 (fun b _ => rfl)]
    simp
  | cons r g ih =>
    intro hnd hmem
    have hsplit : ∀ b ∈ ks, branchCount (r :: g) b
        = (if r.branch == b then 1 else 0) + branchCount g b := by
      intro b _
      simp only [branchCount, List.filter_cons]
      split
      · rw [List.length_cons]
        omega
      · omega
    rw [List.map_congr_left hsplit, sum_map_add_split, sum_map_ite_eq_countP, ih hnd
      (fun x hx => hmem x (List.mem_cons_of_mem r hx))]
    have hcnt : ks.countP (fun b => r.branch == b) = ks.count r.branch := by
      rw [List.count]
      exact List.countP_congr (fun b _ => by rw [beq_symm_str r.branch b])
    rw [hcnt, count_eq_one_of_nodup_mem hnd (hmem r (List.mem_cons_self r g))]
    rw [List.length_cons]
    omega

/-- Every record of an allocated bucket carries a branch code listed among
the sorted keys of the index. -/
theorem mem_groups_branch_in_keys (branches : CategoryIndex) (k : Nat)
    (groups : List (List Student))
    (hN : keysNodup branches) (hC : branchConsistent branches) (hk : 1 ≤ k)
    (hg : groups = create_and_save_branchwise_groups branches k
        ∨ groups = create_and_save_uniform_groups branches k) :
    ∀ g ∈ groups, ∀ r ∈ g, r.branch ∈ sortedKeys branches := by
  intro g hgmem r hr
  have hflat : (groups.flatten).Perm (allRecords branches) := by
    rcases hg with rfl | rfl
    · exact branchwise_flatten_perm branches k hN hk
    · exact uniform_flatten_perm branches k hk
  have hrall : r ∈ allRecords branches :=
    hflat.mem_iff.mp (List.mem_flatten.mpr ⟨g, hgmem, hr⟩)
  obtain ⟨p, hp, hrp⟩ := List.mem_flatMap.mp hrall
  have : r.branch = p.1 := hC p hp r hrp
  rw [this]
  exact (pySort_perm strLe (branches.map Prod.fst)).mem_iff.mpr
    (List.mem_map_of_mem Prod.fst hp)

/-- C1: for every loaded dataset (a duplicate-free category index) and
every groupCount of at least 2, the multiset union of all bucket contents
equals the multiset of all input records, for the round-robin allocator and
for the size-balanced allocator alike. -/
theorem claim_conservation (branches : CategoryIndex) (k : Nat)
    (hN : keysNodup branches) (hk : 2 ≤ k) :
    ((create_and_save_branchwise_groups branches k).flatten : Multiset Student)
        = (allRecords branches : Multiset Student)
    ∧ ((create_and_save_uniform_groups branches k).flatten : Multiset Student)
        = (allRecords branches : Multiset Student) :=
  ⟨Multiset.coe_eq_coe.mpr (branchwise_flatten_perm branches k hN (by omega)),
   Multiset.coe_eq_coe.mpr (uniform_flatten_perm branches k (by omega))⟩

/-- Witness for C1 at the worked example with two groups. -/
theorem claim_conservation_witness :
    keysNodup exIndex ∧ 2 ≤ 2
    ∧ (((create_and_save_branchwise_groups exIndex 2).flatten : Multiset Student)
          = (allRecords exIndex : Multiset Student)
        ∧ ((create_and_save_uniform_groups exIndex 2).flatten : Multiset Student)
          = (allRecords exIndex : Multiset Student)) :=
  ⟨by decide, by decide, claim_conservation exIndex 2 (by decide) (by decide)⟩

/-- C2 counterexample: on the index with five AI records and three CB
records and two groups, the cursor stands at 1 after the AI block, so the
code does not produce the buckets the claim asserts (AI 1,3,5 with CB 1,3
against AI 2,4 with CB 2); bucket 0 in fact ends with four records. -/
theorem claim_roundRobin_example_counterexample :
    create_and_save_branchwise_groups exIndex 2
        ≠ [[ai1, ai3, ai5, cb1, cb3], [ai2, ai4, cb2]]
    ∧ ((create_and_save_branchwise_groups exIndex 2).getD 0 []).length = 4 :=
  ⟨by decide, by decide⟩

/-- C2 (amended): the round-robin allocator iterates category codes in
ascending order and assigns each visited record to the bucket at the
cursor, advancing the cursor by one modulo groupCount and carrying it
across category boundaries; on the input with five AI records and three CB
records and groupCount 2, bucket 0 receives AI records 1, 3, 5 and CB
record 2 (size 4) and bucket 1 receives AI records 2, 4 and CB records
1, 3 (size 4). -/
theorem claim_roundRobin_cursor :
    (∀ (branches : CategoryIndex) (k i : Nat), 1 ≤ k → i < k →
        (create_and_save_branchwise_groups branches k).getD i []
          = specRoundRobinPick k i 0 (allSortedRecords branches))
    ∧ create_and_save_branchwise_groups exIndex 2
        = [[ai1, ai3, ai5, cb2], [ai2, ai4, cb1, cb3]] := by
  constructor
  · intro branches k i hk hi
    exact branchwise_getD_spec branches k i hk hi
  · decide

/-- Witness for the amended C2 at the worked example. -/
theorem claim_roundRobin_cursor_witness :
    1 ≤ 2 ∧ 0 < 2
    ∧ (create_and_save_branchwise_groups exIndex 2).getD 0 []
        = specRoundRobinPick 2 0 0 (allSortedRecords exIndex) :=
  ⟨by decide, by decide, claim_roundRobin_cursor.1 exIndex 2 0 (by decide) (by decide)⟩

/-- C3: after a size-balanced run with groupCount of at least 2, every
bucket other than the last is no larger than the ceiling target size. -/
theorem claim_sizeBalanced_nonlast_bound (branches : CategoryIndex) (k i : Nat)
    (hk : 2 ≤ k) (hi : i < k - 1) :
    ((create_and_save_uniform_groups branches k).getD i []).length
      ≤ targetSize branches k :=
  uniform_bucket_bound_aux branches k hk i (by omega)

/-- Witness for C3 at the worked example with two groups. -/
theorem claim_sizeBalanced_nonlast_bound_witness :
    2 ≤ 2 ∧ 0 < 2 - 1
    ∧ ((create_and_save_uniform_groups exIndex 2).getD 0 []).length
        ≤ targetSize exIndex 2 :=
  ⟨by decide, by decide,
    claim_sizeBalanced_nonlast_bound exIndex 2 0 (by decide) (by decide)⟩

/-- C4 counterexample: loading an upload whose CB row precedes its AI row
stores two equal-sized branches with CB first; the size sort of the
size-balanced allocator keeps CB before AI, so equal counts are not broken
by ascending category code (which would put AI first). -/
theorem claim_sizeSort_tieBreak_counterexample :
    ¬ List.Pairwise
        (fun a b => b.2.length < a.2.length
          ∨ (a.2.length = b.2.length ∧ strLe b.1 a.1 = false))
        (sortedBranches (load_data emptyState tieFile).2.branches) := by
  decide

/-- C4 (amended): the size-balanced allocator processes categories in
record-count-descending order, and categories of equal count keep their
insertion order in the branches dict (first appearance in the input), not
ascending code order: the processing order is a permutation of the index,
its counts never increase, and within each count class it preserves the
stored order exactly. -/
theorem claim_sizeSort_order (branches : CategoryIndex) :
    (sortedBranches branches).Perm branches
    ∧ List.Pairwise (fun a b => b.2.length ≤ a.2.length) (sortedBranches branches)
    ∧ ∀ n : Nat, (sortedBranches branches).filter (fun p => p.2.length == n)
        = branches.filter (fun p => p.2.length == n) := by
  refine ⟨pySort_perm byCountDesc branches, ?_, ?_⟩
  · have h := pySort_pairwise byCountDesc byCountDesc_total byCountDesc_trans branches
    exact h.imp (fun hab => by rwa [byCountDesc, decide_eq_true_eq] at hab)
  · intro n
    refine filter_pySort byCountDesc (fun p => p.2.length == n) ?_ branches
    intro a b ha hb
    rw [beq_iff_eq] at ha hb
    rw [byCountDesc, decide_eq_true_eq]
    omega

/-- Witness for the amended C4 at the worked example index. -/
theorem claim_sizeSort_order_witness :
    (sortedBranches exIndex).Perm exIndex
    ∧ (sortedBranches exIndex).filter (fun p => p.2.length == 3)
        = exIndex.filter (fun p => p.2.length == 3) :=
  ⟨(claim_sizeSort_order exIndex).1, (claim_sizeSort_order exIndex).2.2 3⟩

/-- C6 counterexample: a load whose schema lacks the Email column fails,
yet the stored dataframe afterwards differs from what it was before the
load, so some partial state was committed. -/
theorem claim_load_missing_counterexample :
    (load_data emptyState badFile).1 = false
    ∧ (load_data emptyState badFile).2.students_df ≠ emptyState.students_df :=
  ⟨by decide, by decide⟩

/-- C6 (amended): when a required column is missing, the load fails and
leaves the category index untouched, but the stored dataframe is
overwritten with the newly parsed upload before validation. -/
theorem claim_load_missing_state (st : AnalyserState) (file : InputData)
    (h : required_cols.all (fun c => file.cols.contains c) = false) :
    load_data st file = (false, { st with students_df := some file }) := by
  rw [load_data, if_neg (by rw [h]; exact Bool.false_ne_true)]

/-- Witness for the amended C6 at a concrete missing-column upload. -/
theorem claim_load_missing_state_witness :
    required_cols.all (fun c => badFile.cols.contains c) = false
    ∧ load_data emptyState badFile
        = (false, { emptyState with students_df := some badFile }) :=
  ⟨by decide, claim_load_missing_state emptyState badFile (by decide)⟩

/-- C7: the branches dict is never cleared between loads, so after a first
successful load of an AI-only upload followed by a second successful load
of a CB-only upload, the index still lists the stale AI category next to
CB; the claimed full rebuild does not happen. -/
theorem claim_index_rebuild_bug :
    (load_data emptyState fileA).1 = true
    ∧ (load_data (load_data emptyState fileA).2 fileB).1 = true
    ∧ ((load_data (load_data emptyState fileA).2 fileB).2.branches.map Prod.fst)
        = ["AI", "CB"] :=
  ⟨by decide, by decide, by decide⟩

/-- C8: in a round-robin run over a duplicate-free consistent index, for a
category holding at least groupCount records, the per-category counts of
any two buckets differ by at most one. -/
theorem claim_roundRobin_spread (branches : CategoryIndex) (k : Nat)
    (cat : String) (rs : List Student) (i j : Nat)
    (hN : keysNodup branches) (hC : branchConsistent branches)
    (hk : 2 ≤ k) (hmem : (cat, rs) ∈ branches) (hlen : k ≤ rs.length)
    (hi : i < k) (hj : j < k) :
    branchCount ((create_and_save_branchwise_groups branches k).getD i []) cat
      ≤ branchCount ((create_and_save_branchwise_groups branches k).getD j []) cat
        + 1 := by
  obtain ⟨s, hs, hcount⟩ :=
    branchwise_branchCount_eq branches k cat rs hN hC (by omega) hmem
  rw [hcount i hi, hcount j hj]
  exact residCount_diff_le_one k i j s rs.length hs hi hj

/-- Witness for C8: the AI category of the worked example against both
buckets of a two-group run. -/
theorem claim_roundRobin_spread_witness :
    keysNodup exIndex ∧ branchConsistent exIndex ∧ 2 ≤ 2
    ∧ ("AI", [ai1, ai2, ai3, ai4, ai5]) ∈ exIndex
    ∧ 2 ≤ [ai1, ai2, ai3, ai4, ai5].length ∧ 0 < 2 ∧ 1 < 2
    ∧ branchCount ((create_and_save_branchwise_groups exIndex 2).getD 0 []) "AI"
        ≤ branchCount ((create_and_save_branchwise_groups exIndex 2).getD 1 []) "AI"
          + 1 :=
  ⟨by decide, by decide, by decide, by decide, by decide, by decide, by decide,
    claim_roundRobin_spread exIndex 2 "AI" [ai1, ai2, ai3, ai4, ai5] 0 1
      (by decide) (by decide) (by decide) (by decide) (by decide) (by decide)
      (by decide)⟩

/-- An enumerated pair holds a member of the underlying list. -/
theorem snd_mem_of_mem_enum {α : Type} (l : List α) (p : Nat × α)
    (h : p ∈ l.enum) : p.2 ∈ l := by
  have h1 : p.2 ∈ l.enum.map Prod.snd := List.mem_map_of_mem Prod.snd h
  rwa [List.enum_map_snd] at h1

/-- C9: over a duplicate-free consistent index, the statistics of an
allocation run hold one row per non-empty bucket, in bucket order, whose
counts follow the globally sorted category codes (zero when the bucket
lacks the category) and whose Total is the bucket size; every row's counts
sum to its Total, and all Totals sum to the number of records allocated. -/
theorem claim_stats_consistent (branches : CategoryIndex) (k : Nat)
    (groups : List (List Student))
    (hN : keysNodup branches) (hC : branchConsistent branches) (hk : 2 ≤ k)
    (hg : groups = create_and_save_branchwise_groups branches k
        ∨ groups = create_and_save_uniform_groups branches k) :
    save_statistics branches groups
      = (groups.enum.filter (fun ig => !ig.2.isEmpty)).map
          (fun ig =>
            { label := groupLabel (ig.1 + 1),
              counts := (sortedKeys branches).map (fun b => branchCount ig.2 b),
              total := ig.2.length })
    ∧ (∀ row ∈ save_statistics branches groups, row.counts.sum = row.total)
    ∧ ((save_statistics branches groups).map StatsRow.total).sum
        = totalRecords branches
    ∧ List.Pairwise (fun a b => strLe a b = true) (sortedKeys branches) := by
  have hknd : (sortedKeys branches).Nodup :=
    (pySort_perm strLe (branches.map Prod.fst)).nodup_iff.mpr hN
  have hbr := mem_groups_branch_in_keys branches k groups hN hC (by omega) hg
  have hcnt : ∀ g ∈ groups,
      ((sortedKeys branches).map (fun b => branchCount g b)).sum = g.length :=
    fun g hgm => sum_branchCounts (sortedKeys branches) g hknd (hbr g hgm)
  have heq : save_statistics branches groups
      = (groups.enum.filter (fun ig => !ig.2.isEmpty)).map
          (fun ig =>
            { label := groupLabel (ig.1 + 1),
              counts := (sortedKeys branches).map (fun b => branchCount ig.2 b),
              total := ig.2.length }) := by
    rw [save_statistics]
    refine filterMap_if_eq_filter_map groups.enum (fun ig => ig.2.isEmpty) _ _ ?_
    intro ig higm _
    have hsum := hcnt ig.2 (snd_mem_of_mem_enum groups ig higm)
    rw [hsum]
  refine ⟨heq, ?_, ?_, ?_⟩
  · intro row hrow
    rw [save_statistics] at hrow
    obtain ⟨ig, _, hsome⟩ := List.mem_filterMap.mp hrow
    rcases hemp : ig.2.isEmpty with _ | _
    · rw [if_neg (by rw [hemp]; exact Bool.false_ne_true)] at hsome
      rcases Option.some.inj hsome with rfl
      rfl
    · rw [if_pos (by rw [hemp])] at hsome
      cases hsome
  · rw [heq, List.map_map]
    have hmap : ((fun (r : StatsRow) => r.total) ∘
        (fun ig : Nat × List Student =>
          ({ label := groupLabel (ig.1 + 1),
             counts := (sortedKeys branches).map (fun b => branchCount ig.2 b),
             total := ig.2.length } : StatsRow)))
        = fun ig : Nat × List Student => ig.2.length := rfl
    rw [hmap, sum_filter_nonempty]
    have h2 : groups.enum.map (fun ig => ig.2.length)
        = (groups.enum.map Prod.snd).map List.length := by
      rw [List.map_map]
      rfl
    rw [h2, List.enum_map_snd, ← List.length_flatten]
    have hflat : (groups.flatten).Perm (allRecords branches) := by
      rcases hg with rfl | rfl
      · exact branchwise_flatten_perm branches k hN (by omega)
      · exact uniform_flatten_perm branches k (by omega)
    rw [hflat.length_eq, length_allRecords]
  · exact pySort_pairwise strLe strLe_total strLe_trans (branches.map Prod.fst)

/-- Witness for C9: the worked example, two groups, round-robin buckets. -/
theorem claim_stats_consistent_witness :
    keysNodup exIndex ∧ branchConsistent exIndex ∧ 2 ≤ 2
    ∧ ((save_statistics exIndex
          (create_and_save_branchwise_groups exIndex 2)).map StatsRow.total).sum
        = totalRecords exIndex :=
  ⟨by decide, by decide, by decide,
    (claim_stats_consistent exIndex 2 (create_and_save_branchwise_groups exIndex 2)
      (by decide) (by decide) (by decide) (Or.inl rfl)).2.2.1⟩

/-- C10: in a size-balanced run with groupCount of at least 2, every
bucket, the last one included, stays within the ceiling target: the cursor
leaves a bucket only once it holds exactly the target, so the last bucket
receives only what the full prefix leaves over and the documented overflow
past the target cannot occur within one run. -/
theorem claim_sizeBalanced_no_overflow (branches : CategoryIndex) (k i : Nat)
    (hk : 2 ≤ k) (hi : i < k) :
    ((create_and_save_uniform_groups branches k).getD i []).length
      ≤ targetSize branches k :=
  uniform_bucket_bound_aux branches k hk i hi

/-- Witness for C10 at the last bucket of a two-group run on the worked
example. -/
theorem claim_sizeBalanced_no_overflow_witness :
    2 ≤ 2 ∧ 1 < 2
    ∧ ((create_and_save_uniform_groups exIndex 2).getD 1 []).length
        ≤ targetSize exIndex 2 :=
  ⟨by decide, by decide,
    claim_sizeBalanced_no_overflow exIndex 2 1 (by decide) (by decide)⟩

end StudentGroup
